import Mathlib

/-!
# Verification of the `ContentIndexer` core of `KakaoSkill/skill_server.py`

This file gives a shallow embedding, in Lean 4, of the content indexing and
search subsystem of the repository (class `ContentIndexer` in
`src/KakaoSkill/skill_server.py`): the index data model, `extract_summary`'s
truncation logic, `extract_image`, `reload_index`, the four-tier `search`,
and `get_by_category`, together with a faithful model of the parts of
Python's `difflib` (`SequenceMatcher.ratio` / `get_close_matches`) that
`search`'s fuzzy tier uses.

Python strings are modelled as `List Char` (Python indexes and slices by
code point, which matches `List Char` and not Lean's byte-indexed `String`).
Python's `str.lower`, `str.strip` and `str.split` are modelled on the
character repertoire the indexer actually meets (ASCII plus characters,
such as Hangul, that those Python functions leave unchanged): `pyLower`
lowercases the ASCII letters and fixes everything else, and `isPySpace`
recognises the ASCII whitespace characters.
-/

set_option maxRecDepth 100000
set_option maxHeartbeats 2000000

/-- Python strings, as lists of code points. -/
abbrev PyStr := List Char

/-- Shorthand for the `List Char` contents of a Lean string literal. -/
def pstr (s : String) : PyStr := s.toList

/-- `str.lower` restricted to ASCII: maps the letters `A`–`Z` to `a`–`z` and
fixes every other character (in particular all Hangul, digits, and
punctuation, exactly as Python does). -/
def pyLower (c : Char) : Char :=
  if 65 ≤ c.toNat ∧ c.toNat ≤ 90 then Char.ofNat (c.toNat + 32) else c

/-- `str.lower` on a whole string. -/
def pyLowerStr (s : PyStr) : PyStr := s.map pyLower

/-- The ASCII whitespace characters recognised by `str.strip()` and
`str.split()`. -/
def isPySpace (c : Char) : Bool :=
  c.toNat == 32 || c.toNat == 9 || c.toNat == 10 || c.toNat == 13 ||
    c.toNat == 11 || c.toNat == 12

/-- `str.strip()`: drop leading and trailing whitespace. -/
def pyStrip (s : PyStr) : PyStr :=
  ((s.dropWhile isPySpace).reverse.dropWhile isPySpace).reverse

/-- Helper for `pySplit`: `cur` holds the characters of the word currently
being read, in reverse order. -/
def pySplitGo : List Char → List Char → List PyStr
  | [], cur => if cur = [] then [] else [cur.reverse]
  | c :: cs, cur =>
      if isPySpace c then
        if cur = [] then pySplitGo cs [] else cur.reverse :: pySplitGo cs []
      else pySplitGo cs (c :: cur)

/-- `str.split()` with no argument: split on runs of whitespace, dropping
empty pieces. -/
def pySplit (s : PyStr) : List PyStr := pySplitGo s []

/-- Does `hay` start with `needle`? -/
def startsWith : PyStr → PyStr → Bool
  | [], _ => true
  | _ :: _, [] => false
  | a :: as, b :: bs => a == b && startsWith as bs

/-- Python's `needle in hay` on strings: contiguous substring test. -/
def isSubstr (needle : PyStr) : PyStr → Bool
  | [] => needle == []
  | c :: cs => startsWith needle (c :: cs) || isSubstr needle cs

/-- The normalisation `query.lower().strip()` applied by `search` (line 189
of `skill_server.py`). -/
def pyNormalize (q : PyStr) : PyStr := pyStrip (pyLowerStr q)

example : pyNormalize (pstr "  ABc 리모컨 ") = pstr "abc 리모컨" := by decide
example : isSubstr (pstr "배터리 교체") (pstr "리모컨 배터리 교체") = true := by decide
example : isSubstr (pstr "") (pstr "x") = true := by decide
example : pySplit (pstr " a bb  c ") = [pstr "a", pstr "bb", pstr "c"] := by decide

/-!
## A model of the fragment of Python's `difflib` used by the fuzzy tier

`search` calls `difflib.get_close_matches(query, titles, n=5, cutoff=0.4)`.
For inputs without junk elements (`autojunk` only fires on strings of 200+
characters; every title and query here is far shorter), `SequenceMatcher`'s
`find_longest_match` returns, among all maximal matching blocks, the one
starting earliest in the first sequence and then earliest in the second
(this is its documented contract), and `ratio()` is `2*M/(len(a)+len(b))`
where `M` is the total size of the greedy matching-block decomposition
(`1.0` when both sequences are empty).  We model exactly that, computing
with exact rationals via cross-multiplication instead of floats: for the
short strings involved, two distinct exact ratios are separated by far more
than a double ulp, so exact comparison agrees with Python's float
comparison, and the cutoff test `ratio >= 0.4` is `5*M >= len(a)+len(b)`.
-/

/-- Length of the longest common prefix of two strings. -/
def commonPrefixLen : List Char → List Char → Nat
  | a :: as, b :: bs => if a == b then commonPrefixLen as bs + 1 else 0
  | _, _ => 0

/-- Length of the matching block of `a` and `b` beginning at positions
`i` and `j`. -/
def extLen (a b : List Char) (i j : Nat) : Nat :=
  commonPrefixLen (a.drop i) (b.drop j)

/-- `SequenceMatcher.find_longest_match` over the whole of `a` and `b`
(no junk): the maximal matching block `(i, j, size)`, ties broken by the
smallest `i`, then the smallest `j`; `(0, 0, 0)` when there is no match.
Scanning candidate positions in ascending lexicographic order and keeping
the first strict improvement realises exactly that tie-breaking. -/
def flm (a b : List Char) : Nat × Nat × Nat :=
  (List.range a.length).foldl (fun best i =>
    (List.range b.length).foldl (fun best2 j =>
      let k := extLen a b i j
      if best2.2.2 < k then (i, j, k) else best2) best) (0, 0, 0)

/-- Total size `M` of `SequenceMatcher.get_matching_blocks`: the size of the
longest match plus, recursively, the total sizes to its left and right.
The `fuel` argument only forces structural termination: each unfolding
strictly decreases `a.length + b.length` (a nonzero block leaves strictly
shorter pieces on both sides), so the fuel supplied by `matchSize` is never
exhausted. -/
def matchSizeF : Nat → List Char → List Char → Nat
  | 0, _, _ => 0
  | fuel + 1, a, b =>
      match flm a b with
      | (i, j, k) =>
          if k = 0 then 0
          else
            matchSizeF fuel (a.take i) (b.take j) + k +
              matchSizeF fuel (a.drop (i + k)) (b.drop (j + k))

/-- Total matched size `M` between `a` and `b`, as used by
`SequenceMatcher.ratio`. -/
def matchSize (a b : List Char) : Nat :=
  matchSizeF (a.length + b.length + 1) a b

/-- `ratio(a1) > ratio(a2)` where `ratio = 2*m/l` (`1.0` when `l = 0`),
compared exactly. -/
def ratioGtB (m1 l1 m2 l2 : Nat) : Bool :=
  if l1 = 0 then (if l2 = 0 then false else 2 * m2 < l2)
  else if l2 = 0 then false
  else m2 * l1 < m1 * l2

/-- `ratio(a1) == ratio(a2)`, compared exactly. -/
def ratioEqB (m1 l1 m2 l2 : Nat) : Bool :=
  if l1 = 0 then (if l2 = 0 then true else 2 * m2 == l2)
  else if l2 = 0 then 2 * m1 == l1
  else m2 * l1 == m1 * l2

/-- Python's `<` on strings: lexicographic by code point. -/
def pyStrLtB : PyStr → PyStr → Bool
  | [], [] => false
  | [], _ :: _ => true
  | _ :: _, [] => false
  | a :: as, b :: bs => if a == b then pyStrLtB as bs else decide (a.toNat < b.toNat)

/-- Strict "comes before" order on scored candidates `(m, l, title)` used by
`heapq.nlargest` over `(score, string)` pairs: larger ratio first, ties by
larger string.  Identical candidates compare `false`, keeping the stable
order of `sorted(..., reverse=True)`. -/
def scoreGtB (a b : Nat × Nat × PyStr) : Bool :=
  ratioGtB a.1 a.2.1 b.1 b.2.1 ||
    (ratioEqB a.1 a.2.1 b.1 b.2.1 && pyStrLtB b.2.2 a.2.2)

/-- Stable insertion into a descending-sorted list: `x` goes after every
element strictly greater than it. -/
def insertDesc (gt : α → α → Bool) (x : α) : List α → List α
  | [] => [x]
  | y :: ys => if gt y x then y :: insertDesc gt x ys else x :: y :: ys

/-- Stable descending sort, matching `sorted(scored, reverse=True)` (which
is what `heapq.nlargest(n, scored)` truncates). -/
def sortDesc (gt : α → α → Bool) (l : List α) : List α :=
  l.foldr (insertDesc gt) []

/-- `difflib.get_close_matches(word, possibilities, n, cutoff=0.4)`: keep the
candidates whose ratio against `word` reaches the cutoff, order them by
descending `(score, candidate)`, and return the first `n`.  (The
`real_quick_ratio`/`quick_ratio` pre-filters are upper bounds of `ratio` and
never change this set.) -/
def getCloseMatches (word : PyStr) (possibilities : List PyStr) (n : Nat) : List PyStr :=
  let scored := possibilities.filterMap (fun x =>
    let m := matchSize x word
    let l := x.length + word.length
    if l ≤ 5 * m then some (m, l, x) else none)
  ((sortDesc scoreGtB scored).take n).map (fun t => t.2.2)

example : matchSize (pstr "리모컨 배터리 교체") (pstr "배터리 교체") = 6 := by decide
example : matchSize (pstr "배터리 부족 경고") (pstr "배터리 교체") = 4 := by decide
example :
    getCloseMatches (pstr "배터리 교체")
      [pstr "리모컨 배터리 교체", pstr "배터리 부족 경고"] 5 =
      [pstr "리모컨 배터리 교체", pstr "배터리 부족 경고"] := by decide

/-!
## The index data model and the four-tier `search`

One `Record` per dictionary appended by `reload_index` (lines 174–182 of
`skill_server.py`).
-/

/-- One entry of `self.index`. -/
structure Record where
  title : PyStr
  category : PyStr
  path : PyStr
  full_path : PyStr
  summary : PyStr
  image_url : Option PyStr
  link : PyStr
deriving DecidableEq, Repr

/-- `add_result` (lines 193–196): append `it` unless a result with the same
title was already added.  The Python code keeps `seen_titles` as a separate
set, but it always equals the set of titles of `results`, so membership in
the accumulated titles is the same test. -/
def addResult (acc : List Record) (it : Record) : List Record :=
  if acc.any (fun x => x.title == it.title) then acc else acc ++ [it]

/-- One tier's scan: `for item in self.index: if p(item): add_result(item)`. -/
def addAll (acc : List Record) (items : List Record) (p : Record → Bool) : List Record :=
  items.foldl (fun a it => if p it then addResult a it else a) acc

/-- Tiers 2 and 3 of `search` (lines 204–214): the substring scan followed,
when the query has more than one token, by the token-AND scan. -/
def tier23 (index : List Record) (q : PyStr) : List Record :=
  let r2 := addAll [] index (fun it => isSubstr q (pyLowerStr it.title))
  let toks := pySplit q
  if 1 < toks.length then
    addAll r2 index (fun it => toks.all (fun t => isSubstr t (pyLowerStr it.title)))
  else r2

/-- Tier 4 of `search` (lines 216–223): only when fewer than 3 results have
accumulated, append the records whose title is one of the up-to-5 close
matches of the query among all titles. -/
def tier4 (index : List Record) (q : PyStr) (r3 : List Record) : List Record :=
  if r3.length < 3 then
    (getCloseMatches q (index.map (fun it => it.title)) 5).foldl
      (fun acc m => addAll acc index (fun it => it.title == m)) r3
  else r3

/-- `ContentIndexer.search` (lines 185–225).  `if not query: return []` is
the test `query = []`; then the query is lowercased and stripped; tier 1
returns `[it]` for the first record whose lowercased title equals the
normalised query, short-circuiting everything else; otherwise tiers 2–4
accumulate. -/
def search (index : List Record) (query : PyStr) : List Record :=
  if query = [] then []
  else
    let q := pyNormalize query
    match index.find? (fun it => pyLowerStr it.title == q) with
    | some it => [it]
    | none => tier4 index q (tier23 index q)

/-- `ContentIndexer.get_by_category` (lines 227–228). -/
def get_by_category (index : List Record) (category : PyStr) : List Record :=
  index.filter (fun it => it.category == category)

/-- A record with a given title and everything else empty, for concrete
indexes in the theorems below. -/
def mkTitled (t : String) : Record :=
  { title := pstr t, category := [], path := [], full_path := [],
    summary := [], image_url := none, link := [] }

example :
    search [mkTitled "리모컨 배터리 교체", mkTitled "배터리 부족 경고"]
      (pstr "배터리 교체") =
      [mkTitled "리모컨 배터리 교체", mkTitled "배터리 부족 경고"] := by decide

example :
    search [mkTitled "a"] (pstr "   ") = [mkTitled "a"] := by decide

example : search [mkTitled "a"] (pstr "") = [] := by decide

/-!
## `extract_summary`'s truncation and the index builder

`extract_summary` (lines 81–118) reads a file, strips style/script/meta-info
blocks and tables, flattens the remaining markup to entity-decoded,
whitespace-collapsed text, and truncates.  The file system and the
regex-based flattening pipeline are I/O that we model at their boundary: a
`PostDir`'s `data` is `none` when opening or reading the file raises (the
`except` branch), and otherwise carries the flattened text the pipeline
produced together with the first-image source that `extract_image`'s regex
search found (`none` when there is no image tag).  The truncation of the
flattened text (lines 106–114) is modelled exactly. -/

/-- Index of the last occurrence of `ch` in `l`, or `none`. -/
def lastIdxOf (ch : Char) : List Char → Option Nat
  | [] => none
  | c :: cs =>
      match lastIdxOf ch cs with
      | some i => some (i + 1)
      | none => if c == ch then some 0 else none

/-- `s.rfind(ch, 0, stop)` restricted to a single character, except that a
missing occurrence is `none` rather than `-1`: the highest index below
`stop` holding `ch`. -/
def pyRfind (ch : Char) (s : PyStr) (stop : Nat) : Option Nat :=
  lastIdxOf ch (s.take stop)

/-- Lines 106–114 of `extract_summary`: if the flattened text exceeds 800
characters, cut at the last period among the first 800 characters
(inclusive), or, when there is none, hard-truncate to 800 characters and
append `"..."`. -/
def truncateText (text : PyStr) : PyStr :=
  if 800 < text.length then
    match pyRfind '.' text 800 with
    | some i => text.take (i + 1)
    | none => text.take 800 ++ pstr "..."
  else text

/-- The flattened text and first-image source of one readable, parsable
document (see the module comment of this section). -/
structure PostData where
  flatText : PyStr
  imageSrc : Option PyStr
deriving DecidableEq, Repr

/-- One entry of `os.listdir` on a category folder: the folder name (which
becomes the title), whether it is a directory containing an `index.html`
(line 156), and its document data, `none` when reading raises. -/
structure PostDir where
  title : PyStr
  hasIndex : Bool
  data : Option PostData
deriving DecidableEq, Repr

/-- The file-system state `reload_index` walks: whether the base directory
exists, and, per category folder name, `os.listdir`'s result (`none` when
the folder is missing, line 149). -/
structure Fs where
  baseDir : PyStr
  baseExists : Bool
  listing : PyStr → Option (List PostDir)

/-- The fallback summary returned when reading a document raises
(line 118). -/
def placeholderSummary : PyStr := pstr "내용을 미리볼 수 없습니다."

/-- `extract_summary`: the placeholder on failure, otherwise the truncated
flattened text. -/
def extract_summary (data : Option PostData) : PyStr :=
  match data with
  | none => placeholderSummary
  | some d => truncateText d.flatText

/-- `extract_image` (lines 120–133): `none` both when reading raises and
when no image tag matches. -/
def extract_image (data : Option PostData) : Option PyStr :=
  data.bind (fun d => d.imageSrc)

/-- One byte of a `%XX` escape, uppercase, as `urllib.parse.quote`
produces. -/
def hexDigit (n : Nat) : Char :=
  if n < 10 then Char.ofNat (48 + n) else Char.ofNat (55 + n)

/-- UTF-8 encoding of a code point. -/
def utf8Bytes (n : Nat) : List Nat :=
  if n < 128 then [n]
  else if n < 2048 then [192 + n / 64, 128 + n % 64]
  else if n < 65536 then [224 + n / 4096, 128 + n / 64 % 64, 128 + n % 64]
  else [240 + n / 262144, 128 + n / 4096 % 64, 128 + n / 64 % 64, 128 + n % 64]

/-- The characters `urllib.parse.quote` leaves unescaped with its default
`safe='/'`: ASCII alphanumerics, `_.-~`, and `/`. -/
def quoteSafe (c : Char) : Bool :=
  (48 ≤ c.toNat && c.toNat ≤ 57) || (65 ≤ c.toNat && c.toNat ≤ 90) ||
    (97 ≤ c.toNat && c.toNat ≤ 122) ||
    c == '_' || c == '.' || c == '-' || c == '~' || c == '/'

/-- `urllib.parse.quote(s)`: percent-encode the UTF-8 bytes of every unsafe
character. -/
def pyQuote (s : PyStr) : PyStr :=
  s.flatMap (fun c =>
    if quoteSafe c then [c]
    else (utf8Bytes c.toNat).flatMap (fun b => ['%', hexDigit (b / 16), hexDigit (b % 16)]))

/-- The category dictionary of `reload_index` (lines 141–145), in its
Python insertion order. -/
def categories : List (PyStr × PyStr) :=
  [(pstr "QnA", pstr "크롤링_QnA"),
   (pstr "Selftest", pstr "크롤링_selftest_MD"),
   (pstr "Products", pstr "크롤링_Products")]

/-- The dictionary appended for one post (lines 156–182): web path from the
percent-encoded folder and title, summary and image from the document data,
and the image URL resolved against `host` when the source is a relative
path (Python's `if image_src:` is falsy both for `None` and for an empty
string). -/
def mkRecord (baseDir host folderName categoryName : PyStr) (p : PostDir) : Record :=
  let safeFolder := pyQuote folderName
  let safeTitle := pyQuote p.title
  let webPath := pstr "/" ++ safeFolder ++ pstr "/" ++ safeTitle ++ pstr "/index.html"
  let imageUrl :=
    match extract_image p.data with
    | none => none
    | some s =>
        if s = [] then none
        else if startsWith (pstr "http") s then some s
        else some (host ++ pstr "/" ++ safeFolder ++ pstr "/" ++ safeTitle ++ pstr "/" ++ s)
  { title := p.title,
    category := categoryName,
    path := webPath,
    full_path := baseDir ++ pstr "/" ++ folderName ++ pstr "/" ++ p.title ++ pstr "/index.html",
    summary := extract_summary p.data,
    image_url := imageUrl,
    link := host ++ webPath }

/-- `reload_index` (lines 135–183): start from an empty index; return it
unchanged when the base directory is missing; otherwise, for each category
in dictionary order whose folder exists, append a record for every listed
entry that is a directory holding an `index.html`. -/
def reload_index (fs : Fs) (host : PyStr) : List Record :=
  if fs.baseExists = false then []
  else
    categories.foldl (fun acc cat =>
      match fs.listing cat.2 with
      | none => acc
      | some posts =>
          posts.foldl (fun a p =>
            if p.hasIndex then a ++ [mkRecord fs.baseDir host cat.2 cat.1 p] else a) acc) []

/-- How many documents the walk of `reload_index` discovers: one per listed
entry with an `index.html`, over the categories whose folder exists. -/
def totalEligible (fs : Fs) : Nat :=
  (categories.map (fun cat =>
    match fs.listing cat.2 with
    | none => 0
    | some posts => (posts.filter (fun p => p.hasIndex)).length)).sum

/-- The mutable state of a `ContentIndexer`. -/
structure IndexerState where
  index : List Record

/-- The `reload_index` method as a state transformer: the stored index is
discarded and replaced by the freshly built one (`self.index = []` on
line 136 runs before any appending). -/
def reloadState (st : IndexerState) (fs : Fs) (host : PyStr) : IndexerState :=
  { st with index := reload_index fs host }

/-!
## Derived notions used by the statements
-/

/-- The earliest record of `idx` bearing the title `t`. -/
def firstWithTitle (idx : List Record) (t : PyStr) : Option Record :=
  idx.find? (fun r => r.title == t)

/-- All records returned carry pairwise distinct titles. -/
def TitlesNodup (l : List Record) : Prop :=
  l.Pairwise (fun a b => a.title ≠ b.title)

/-- Keep, in order, the first record of each title. -/
def dedupByTitle (l : List Record) : List Record :=
  addAll [] l (fun _ => true)

/-- The records one category contributes to the index. -/
def catRecords (fs : Fs) (host : PyStr) (cat : PyStr × PyStr) : List Record :=
  match fs.listing cat.2 with
  | none => []
  | some posts =>
      (posts.filter (fun p => p.hasIndex)).map (mkRecord fs.baseDir host cat.2 cat.1)

/-- A readable, parsable post, for concrete index-builder instances. -/
def postOk : PostDir :=
  { title := pstr "좋은 글", hasIndex := true,
    data := some { flatText := pstr "본문입니다.", imageSrc := none } }

/-- A post whose document cannot be read: `data` is `none`. -/
def postBroken : PostDir :=
  { title := pstr "깨진 글", hasIndex := true, data := none }

/-- A concrete file system whose QnA folder holds one readable and one
unreadable post. -/
def fsDemo : Fs :=
  { baseDir := pstr "/base", baseExists := true,
    listing := fun f => if f = pstr "크롤링_QnA" then some [postOk, postBroken] else none }

/-!
## Invariants of `add_result` scans
-/

lemma mem_addResult {acc : List Record} {it r : Record}
    (h : r ∈ addResult acc it) : r ∈ acc ∨ r = it := by
  unfold addResult at h
  by_cases hany : acc.any (fun x => x.title == it.title) = true
  · rw [if_pos hany] at h
    exact Or.inl h
  · rw [if_neg hany] at h
    rcases List.mem_append.mp h with h1 | h2
    · exact Or.inl h1
    · exact Or.inr (List.mem_singleton.mp h2)

lemma addResult_titlesNodup {acc : List Record} {it : Record}
    (h : TitlesNodup acc) : TitlesNodup (addResult acc it) := by
  unfold addResult
  by_cases hany : acc.any (fun x => x.title == it.title) = true
  · rw [if_pos hany]
    exact h
  · rw [if_neg hany]
    refine List.pairwise_append.mpr ⟨h, List.pairwise_singleton _ _, ?_⟩
    intro x hx y hy heq
    apply hany
    refine List.any_eq_true.mpr ⟨x, hx, ?_⟩
    have hy2 : y = it := List.mem_singleton.mp hy
    subst hy2
    simp [heq]

lemma any_addResult_of_any {acc : List Record} {it : Record} {f : Record → Bool}
    (h : acc.any f = true) : (addResult acc it).any f = true := by
  unfold addResult
  by_cases hany : acc.any (fun x => x.title == it.title) = true
  · rw [if_pos hany]; exact h
  · rw [if_neg hany]
    simp only [List.any_append, h, Bool.true_or]

lemma mem_addAll :
    ∀ {l : List Record} {acc : List Record} {p : Record → Bool} {r : Record},
      r ∈ addAll acc l p → r ∈ acc ∨ r ∈ l := by
  intro l
  induction l with
  | nil => intro acc p r h; exact Or.inl h
  | cons x xs ih =>
    intro acc p r h
    have h2 : r ∈ addAll (if p x then addResult acc x else acc) xs p := h
    rcases ih h2 with hacc | hxs
    · by_cases hp : p x = true
      · rw [if_pos hp] at hacc
        rcases mem_addResult hacc with h3 | h3
        · exact Or.inl h3
        · exact Or.inr (h3 ▸ List.mem_cons_self x xs)
      · rw [if_neg hp] at hacc
        exact Or.inl hacc
    · exact Or.inr (List.mem_cons_of_mem x hxs)

lemma addAll_titlesNodup :
    ∀ {l acc : List Record} {p : Record → Bool},
      TitlesNodup acc → TitlesNodup (addAll acc l p) := by
  intro l
  induction l with
  | nil => intro acc p h; exact h
  | cons x xs ih =>
    intro acc p h
    show TitlesNodup (addAll (if p x then addResult acc x else acc) xs p)
    apply ih
    by_cases hp : p x = true
    · rw [if_pos hp]; exact addResult_titlesNodup h
    · rw [if_neg hp]; exact h

lemma any_addAll_of_any :
    ∀ {l acc : List Record} {p : Record → Bool} {f : Record → Bool},
      acc.any f = true → (addAll acc l p).any f = true := by
  intro l
  induction l with
  | nil => intro acc p f h; exact h
  | cons x xs ih =>
    intro acc p f h
    show (addAll (if p x then addResult acc x else acc) xs p).any f = true
    apply ih
    by_cases hp : p x = true
    · rw [if_pos hp]; exact any_addResult_of_any h
    · rw [if_neg hp]; exact h

lemma addAll_congr {l acc : List Record} {p p2 : Record → Bool}
    (h : ∀ it, p it = p2 it) : addAll acc l p = addAll acc l p2 := by
  unfold addAll
  induction l generalizing acc with
  | nil => rfl
  | cons x xs ih => simp only [List.foldl_cons, h, ih]

lemma firstWithTitle_append_cons {pre tl : List Record} {h : Record}
    (hpre : ∀ x ∈ pre, x.title ≠ h.title) :
    firstWithTitle (pre ++ h :: tl) h.title = some h := by
  induction pre with
  | nil =>
    show List.find? (fun r => r.title == h.title) (h :: tl) = some h
    rw [List.find?]
    simp
  | cons x xs ih =>
    show List.find? (fun r => r.title == h.title) (x :: (xs ++ h :: tl)) = some h
    rw [List.find?]
    have hx : (x.title == h.title) = false := by
      simp [hpre x (List.mem_cons_self x xs)]
    rw [hx]
    exact ih (fun y hy => hpre y (List.mem_cons_of_mem x hy))

/-- The scan invariant: every tier's predicate depends only on a record's
title, so across a whole scan of the index the record added for a title is
the index's first record with that title.  `pre ++ suf = idx` tracks how far
the scan has come; the `hpre` hypothesis records that every already-scanned
record whose predicate holds has its title among the accumulated ones. -/
lemma addAll_scan (idx : List Record) (p : Record → Bool)
    (hp : ∀ a b : Record, a.title = b.title → p a = p b) :
    ∀ (suf pre acc : List Record), pre ++ suf = idx →
      (∀ r ∈ acc, firstWithTitle idx r.title = some r) →
      (∀ it ∈ pre, p it = true → acc.any (fun x => x.title == it.title) = true) →
      ∀ r ∈ addAll acc suf p, firstWithTitle idx r.title = some r := by
  intro suf
  induction suf with
  | nil => intro pre acc _ hacc _ r hr; exact hacc r hr
  | cons h t ih =>
    intro pre acc hidx hacc hpre r hr
    have hr2 : r ∈ addAll (if p h then addResult acc h else acc) t p := hr
    refine ih (pre ++ [h]) _ ?_ ?_ ?_ r hr2
    · rw [List.append_assoc]
      exact hidx
    · -- the new accumulator still holds only canonical first records
      intro x hx
      by_cases hph : p h = true
      · rw [if_pos hph] at hx
        unfold addResult at hx
        by_cases hseen : acc.any (fun y => y.title == h.title) = true
        · rw [if_pos hseen] at hx
          exact hacc x hx
        · rw [if_neg hseen] at hx
          rcases List.mem_append.mp hx with h1 | h1
          · exact hacc x h1
          · have hx2 : x = h := List.mem_singleton.mp h1
            subst hx2
            have hnew : ∀ y ∈ pre, y.title ≠ x.title := by
              intro y hy heq
              apply hseen
              have hpy : p y = true := by rw [hp y x heq]; exact hph
              have := hpre y hy hpy
              rw [heq] at this
              exact this
            rw [← hidx]
            exact firstWithTitle_append_cons hnew
      · rw [if_neg hph] at hx
        exact hacc x hx
    · -- every scanned record with a true predicate has its title accumulated
      intro it hit hpit
      rcases List.mem_append.mp hit with h1 | h1
      · have := hpre it h1 hpit
        by_cases hph : p h = true
        · rw [if_pos hph]; exact any_addResult_of_any this
        · rw [if_neg hph]; exact this
      · have hit2 : it = h := List.mem_singleton.mp h1
        subst hit2
        rw [if_pos hpit]
        unfold addResult
        by_cases hseen : acc.any (fun y => y.title == it.title) = true
        · rw [if_pos hseen]; exact hseen
        · rw [if_neg hseen]
          simp

/-!
## The three structural invariants of `search`
-/

lemma fuzzyFold_mem (idx : List Record) :
    ∀ (ms : List PyStr) (acc : List Record),
      (∀ r ∈ acc, r ∈ idx) →
      ∀ r ∈ ms.foldl (fun a m => addAll a idx (fun it => it.title == m)) acc, r ∈ idx := by
  intro ms
  induction ms with
  | nil => intro acc hacc r hr; exact hacc r hr
  | cons m tl ih =>
    intro acc hacc r hr
    refine ih _ ?_ r hr
    intro x hx
    rcases mem_addAll hx with h1 | h1
    · exact hacc x h1
    · exact h1

lemma fuzzyFold_titlesNodup (idx : List Record) :
    ∀ (ms : List PyStr) (acc : List Record),
      TitlesNodup acc →
      TitlesNodup (ms.foldl (fun a m => addAll a idx (fun it => it.title == m)) acc) := by
  intro ms
  induction ms with
  | nil => intro acc hacc; exact hacc
  | cons m tl ih =>
    intro acc hacc
    exact ih _ (addAll_titlesNodup hacc)

lemma fuzzyFold_first (idx : List Record) :
    ∀ (ms : List PyStr) (acc : List Record),
      (∀ r ∈ acc, firstWithTitle idx r.title = some r) →
      ∀ r ∈ ms.foldl (fun a m => addAll a idx (fun it => it.title == m)) acc,
        firstWithTitle idx r.title = some r := by
  intro ms
  induction ms with
  | nil => intro acc hacc r hr; exact hacc r hr
  | cons m tl ih =>
    intro acc hacc r hr
    refine ih _ ?_ r hr
    refine addAll_scan idx _ ?_ idx [] acc rfl hacc
      (by intro it hit; exact absurd hit (List.not_mem_nil it))
    intro a b hab
    rw [hab]

lemma tier23_mem {idx : List Record} {q : PyStr} :
    ∀ r ∈ tier23 idx q, r ∈ idx := by
  intro r hr
  unfold tier23 at hr
  by_cases hl : 1 < (pySplit q).length
  · rw [if_pos hl] at hr
    rcases mem_addAll hr with h1 | h1
    · rcases mem_addAll h1 with h2 | h2
      · exact absurd h2 (List.not_mem_nil r)
      · exact h2
    · exact h1
  · rw [if_neg hl] at hr
    rcases mem_addAll hr with h1 | h1
    · exact absurd h1 (List.not_mem_nil r)
    · exact h1

lemma tier23_titlesNodup {idx : List Record} {q : PyStr} :
    TitlesNodup (tier23 idx q) := by
  unfold tier23
  by_cases hl : 1 < (pySplit q).length
  · rw [if_pos hl]
    exact addAll_titlesNodup (addAll_titlesNodup List.Pairwise.nil)
  · rw [if_neg hl]
    exact addAll_titlesNodup List.Pairwise.nil

lemma tier23_first {idx : List Record} {q : PyStr} :
    ∀ r ∈ tier23 idx q, firstWithTitle idx r.title = some r := by
  have h2 : ∀ r ∈ addAll [] idx (fun it => isSubstr q (pyLowerStr it.title)),
      firstWithTitle idx r.title = some r := by
    refine addAll_scan idx _ ?_ idx [] [] rfl (by intro r hr; cases hr)
      (by intro it hit; exact absurd hit (List.not_mem_nil it))
    intro a b hab
    rw [hab]
  unfold tier23
  by_cases hl : 1 < (pySplit q).length
  · rw [if_pos hl]
    refine addAll_scan idx _ ?_ idx [] _ rfl h2
      (by intro it hit; exact absurd hit (List.not_mem_nil it))
    intro a b hab
    rw [hab]
  · rw [if_neg hl]
    exact h2

lemma tier4_mem {idx : List Record} {q : PyStr} {r3 : List Record}
    (h3 : ∀ r ∈ r3, r ∈ idx) : ∀ r ∈ tier4 idx q r3, r ∈ idx := by
  unfold tier4
  by_cases hl : r3.length < 3
  · rw [if_pos hl]
    exact fuzzyFold_mem idx _ r3 h3
  · rw [if_neg hl]
    exact h3

lemma tier4_titlesNodup {idx : List Record} {q : PyStr} {r3 : List Record}
    (h3 : TitlesNodup r3) : TitlesNodup (tier4 idx q r3) := by
  unfold tier4
  by_cases hl : r3.length < 3
  · rw [if_pos hl]
    exact fuzzyFold_titlesNodup idx _ r3 h3
  · rw [if_neg hl]
    exact h3

lemma tier4_first {idx : List Record} {q : PyStr} {r3 : List Record}
    (h3 : ∀ r ∈ r3, firstWithTitle idx r.title = some r) :
    ∀ r ∈ tier4 idx q r3, firstWithTitle idx r.title = some r := by
  unfold tier4
  by_cases hl : r3.length < 3
  · rw [if_pos hl]
    exact fuzzyFold_first idx _ r3 h3
  · rw [if_neg hl]
    exact h3

/-- The record returned by the exact tier is also the index's first record
with its own (raw) title: any earlier record with the same raw title would
have the same lowercased title and would have been found first. -/
lemma find?_lower_first {idx : List Record} {q : PyStr} {it : Record}
    (h : idx.find? (fun r => pyLowerStr r.title == q) = some it) :
    firstWithTitle idx it.title = some it := by
  induction idx with
  | nil => simp [List.find?] at h
  | cons x xs ih =>
    by_cases hpx : (pyLowerStr x.title == q) = true
    · have h2 : List.find? (fun r => pyLowerStr r.title == q) (x :: xs) = some x :=
        @List.find?_cons_of_pos _ (fun r => pyLowerStr r.title == q) x xs hpx
      rw [h2] at h
      have hx : x = it := by injection h
      subst hx
      show List.find? (fun r => r.title == x.title) (x :: xs) = some x
      exact @List.find?_cons_of_pos _ (fun r => r.title == x.title) x xs (by simp)
    · have h2 : List.find? (fun r => pyLowerStr r.title == q) (x :: xs) =
          List.find? (fun r => pyLowerStr r.title == q) xs :=
        @List.find?_cons_of_neg _ (fun r => pyLowerStr r.title == q) x xs hpx
      rw [h2] at h
      have hit : (pyLowerStr it.title == q) = true :=
        @List.find?_some _ (fun r => pyLowerStr r.title == q) it xs h
      show List.find? (fun r => r.title == it.title) (x :: xs) = some it
      have h3 : ¬((fun r => r.title == it.title) x = true) := by
        intro heq
        apply hpx
        rw [show x.title = it.title from beq_iff_eq.mp heq]
        exact hit
      rw [@List.find?_cons_of_neg _ (fun r => r.title == it.title) x xs h3]
      exact ih h

/-- `search` on a nonempty query, with the `let` of the normalised query
unfolded. -/
lemma search_eq (idx : List Record) (q : PyStr) (hq : q ≠ []) :
    search idx q =
      (match idx.find? (fun it => pyLowerStr it.title == pyNormalize q) with
       | some it => [it]
       | none => tier4 idx (pyNormalize q) (tier23 idx (pyNormalize q))) := by
  unfold search
  rw [if_neg hq]

lemma search_subset {idx : List Record} {q : PyStr} :
    ∀ r ∈ search idx q, r ∈ idx := by
  intro r hr
  by_cases hq : q = []
  · rw [hq] at hr
    cases hr
  · rw [search_eq idx q hq] at hr
    cases hfind : idx.find? (fun it => pyLowerStr it.title == pyNormalize q) with
    | some it =>
      rw [hfind] at hr
      have : r = it := List.mem_singleton.mp hr
      subst this
      exact List.mem_of_find?_eq_some hfind
    | none =>
      rw [hfind] at hr
      exact tier4_mem tier23_mem r hr

lemma search_titlesNodup {idx : List Record} {q : PyStr} :
    TitlesNodup (search idx q) := by
  by_cases hq : q = []
  · rw [hq]
    exact List.Pairwise.nil
  · rw [search_eq idx q hq]
    cases hfind : idx.find? (fun it => pyLowerStr it.title == pyNormalize q) with
    | some it =>
      show TitlesNodup [it]
      exact List.pairwise_singleton _ _
    | none =>
      show TitlesNodup (tier4 idx (pyNormalize q) (tier23 idx (pyNormalize q)))
      exact tier4_titlesNodup tier23_titlesNodup

lemma search_first {idx : List Record} {q : PyStr} :
    ∀ r ∈ search idx q, firstWithTitle idx r.title = some r := by
  intro r hr
  by_cases hq : q = []
  · rw [hq] at hr
    cases hr
  · rw [search_eq idx q hq] at hr
    cases hfind : idx.find? (fun it => pyLowerStr it.title == pyNormalize q) with
    | some it =>
      rw [hfind] at hr
      have : r = it := List.mem_singleton.mp hr
      subst this
      exact find?_lower_first hfind
    | none =>
      rw [hfind] at hr
      exact tier4_first tier23_first r hr

/-!
## The exact tier and the fuzzy gate
-/

lemma find?_eq_some_of_get? {l : List Record} {p : Record → Bool} :
    ∀ {i : Nat} {r : Record}, l.get? i = some r → p r = true →
      (∀ j r2, j < i → l.get? j = some r2 → p r2 = false) →
      l.find? p = some r := by
  induction l with
  | nil => intro i r hget; simp at hget
  | cons x xs ih =>
    intro i r hget hp hbefore
    cases i with
    | zero =>
      have hx : x = r := by simpa using hget
      subst hx
      exact @List.find?_cons_of_pos _ p x xs hp
    | succ n =>
      have hx : p x = false := hbefore 0 x (Nat.succ_pos n) rfl
      rw [@List.find?_cons_of_neg _ p x xs (by simp [hx])]
      refine ih (by simpa using hget) hp ?_
      intro j r2 hj hget2
      exact hbefore (j + 1) r2 (Nat.succ_lt_succ hj) (by simpa using hget2)

lemma search_exact {idx : List Record} {q : PyStr} {r : Record}
    (hq : pyNormalize q ≠ [])
    (hfind : idx.find? (fun it => pyLowerStr it.title == pyNormalize q) = some r) :
    search idx q = [r] := by
  have hq0 : q ≠ [] := by
    intro h
    apply hq
    rw [h]
    rfl
  rw [search_eq idx q hq0, hfind]

lemma find?_lower_eq_none {idx : List Record} {nq : PyStr}
    (h : ∀ r ∈ idx, pyLowerStr r.title ≠ nq) :
    idx.find? (fun it => pyLowerStr it.title == nq) = none := by
  apply List.find?_eq_none.mpr
  intro x hx
  simp [h x hx]

/-!
## Whitespace-only queries
-/

lemma foldl_const {α β : Type} (init : β) (l : List α) :
    List.foldl (fun b _ => b) init l = init := by
  induction l with
  | nil => rfl
  | cons x xs ih => exact ih

lemma flm_nil_right (a : List Char) : flm a [] = (0, 0, 0) := by
  simp only [flm, List.length_nil, List.range_zero, List.foldl_nil]
  exact foldl_const _ _

lemma matchSize_nil_right (a : List Char) : matchSize a [] = 0 := by
  unfold matchSize
  simp only [List.length_nil, Nat.add_zero]
  show matchSizeF (a.length + 1) a [] = 0
  unfold matchSizeF
  rw [flm_nil_right]
  rfl

lemma getCloseMatches_nil_word {titles : List PyStr} (h : ∀ t ∈ titles, t ≠ []) :
    getCloseMatches [] titles 5 = [] := by
  unfold getCloseMatches
  have hsc : (titles.filterMap (fun x =>
      let m := matchSize x []
      let l := x.length + List.length ([] : PyStr)
      if l ≤ 5 * m then some (m, l, x) else none)) = [] := by
    apply List.filterMap_eq_nil_iff.mpr
    intro x hx
    have hlen : 0 < x.length := List.length_pos.mpr (h x hx)
    simp only [matchSize_nil_right, List.length_nil, Nat.add_zero, Nat.mul_zero]
    rw [if_neg (by omega)]
  rw [hsc]
  rfl

lemma pyLower_space {c : Char} (h : isPySpace c = true) : pyLower c = c := by
  unfold isPySpace at h
  simp only [Bool.or_eq_true, beq_iff_eq] at h
  unfold pyLower
  rw [if_neg]
  intro hc
  rcases h with ((((h | h) | h) | h) | h) | h <;> omega

lemma pyLowerStr_space {s : PyStr} (h : ∀ c ∈ s, isPySpace c = true) :
    pyLowerStr s = s := by
  induction s with
  | nil => rfl
  | cons c cs ih =>
    show pyLower c :: pyLowerStr cs = c :: cs
    rw [pyLower_space (h c (List.mem_cons_self c cs)),
      ih (fun x hx => h x (List.mem_cons_of_mem c hx))]

lemma pyStrip_space {s : PyStr} (h : ∀ c ∈ s, isPySpace c = true) :
    pyStrip s = [] := by
  unfold pyStrip
  rw [List.dropWhile_eq_nil_iff.mpr (fun x hx => h x hx)]
  rfl

lemma pyNormalize_space {s : PyStr} (h : ∀ c ∈ s, isPySpace c = true) :
    pyNormalize s = [] := by
  unfold pyNormalize
  rw [pyLowerStr_space h]
  exact pyStrip_space h

lemma isSubstr_nil (h : PyStr) : isSubstr [] h = true := by
  cases h with
  | nil => rfl
  | cons c cs => rfl

lemma tier23_nil_query (idx : List Record) : tier23 idx [] = dedupByTitle idx := by
  unfold tier23 dedupByTitle
  have hsplit : pySplit ([] : PyStr) = [] := rfl
  rw [hsplit]
  rw [if_neg (by simp)]
  exact addAll_congr (fun it => isSubstr_nil (pyLowerStr it.title))

/-- A whitespace-only (but nonempty) query normalises to the empty string,
which the substring tier matches against every title; with nonempty titles
the exact and fuzzy tiers contribute nothing, so the result is the whole
index, deduplicated by title. -/
lemma search_all_space {idx : List Record} {q : PyStr} (hq : q ≠ [])
    (hsp : ∀ c ∈ q, isPySpace c = true) (ht : ∀ r ∈ idx, r.title ≠ []) :
    search idx q = dedupByTitle idx := by
  have hnq : pyNormalize q = [] := pyNormalize_space hsp
  rw [search_eq idx q hq]
  have hfind : idx.find? (fun it => pyLowerStr it.title == pyNormalize q) = none := by
    apply find?_lower_eq_none
    intro r hr
    rw [hnq]
    intro hl
    apply ht r hr
    unfold pyLowerStr at hl
    exact List.map_eq_nil_iff.mp hl
  rw [hfind]
  show tier4 idx (pyNormalize q) (tier23 idx (pyNormalize q)) = dedupByTitle idx
  rw [hnq, tier23_nil_query]
  unfold tier4
  have hms : getCloseMatches [] (idx.map (fun it => it.title)) 5 = [] := by
    apply getCloseMatches_nil_word
    intro t htm
    rcases List.mem_map.mp htm with ⟨r, hr, hrt⟩
    rw [← hrt]
    exact ht r hr
  by_cases hlen : (dedupByTitle idx).length < 3
  · rw [if_pos hlen, hms]
    rfl
  · rw [if_neg hlen]

/-!
## Characterising `rfind`
-/

lemma lastIdxOf_none_iff (ch : Char) :
    ∀ l : List Char, lastIdxOf ch l = none ↔ ∀ c ∈ l, c ≠ ch := by
  intro l
  induction l with
  | nil => simp [lastIdxOf]
  | cons c cs ih =>
    constructor
    · intro h
      cases hcs : lastIdxOf ch cs with
      | some k =>
        have h2 : lastIdxOf ch (c :: cs) = some (k + 1) := by
          unfold lastIdxOf
          rw [hcs]
        rw [h2] at h
        cases h
      | none =>
        have h2 : lastIdxOf ch (c :: cs) = if c == ch then some 0 else none := by
          unfold lastIdxOf
          rw [hcs]
        rw [h2] at h
        by_cases hc : (c == ch) = true
        · rw [if_pos hc] at h
          cases h
        · intro x hx
          rcases List.mem_cons.mp hx with h3 | h3
          · subst h3
            exact fun he => hc (beq_iff_eq.mpr he)
          · exact ih.mp hcs x h3
    · intro h
      have hcs : lastIdxOf ch cs = none :=
        ih.mpr (fun x hx => h x (List.mem_cons_of_mem c hx))
      unfold lastIdxOf
      rw [hcs, if_neg]
      intro hc
      exact h c (List.mem_cons_self c cs) (beq_iff_eq.mp hc)

lemma lastIdxOf_some_iff (ch : Char) :
    ∀ (l : List Char) (i : Nat),
      lastIdxOf ch l = some i ↔
        (l.get? i = some ch ∧ ∀ j, i < j → l.get? j ≠ some ch) := by
  intro l
  induction l with
  | nil => intro i; simp [lastIdxOf]
  | cons c cs ih =>
    intro i
    constructor
    · intro h
      cases hcs : lastIdxOf ch cs with
      | some k =>
        have h2 : lastIdxOf ch (c :: cs) = some (k + 1) := by
          unfold lastIdxOf
          rw [hcs]
        rw [h2] at h
        have hik : i = k + 1 := by
          injection h with h3
          omega
        subst hik
        obtain ⟨hget, hafter⟩ := (ih k).mp hcs
        refine ⟨by simpa using hget, ?_⟩
        intro j hj hget2
        cases j with
        | zero => omega
        | succ m => exact hafter m (by omega) (by simpa using hget2)
      | none =>
        by_cases hc : (c == ch) = true
        · have h2 : lastIdxOf ch (c :: cs) = some 0 := by
            unfold lastIdxOf
            rw [hcs, if_pos hc]
          rw [h2] at h
          have hi : i = 0 := by
            injection h with h3
            omega
          subst hi
          refine ⟨by simp [beq_iff_eq.mp hc], ?_⟩
          intro j hj hget2
          cases j with
          | zero => omega
          | succ m =>
            have hmem : ch ∈ cs := List.get?_mem (by simpa using hget2)
            exact (lastIdxOf_none_iff ch cs).mp hcs ch hmem rfl
        · have h2 : lastIdxOf ch (c :: cs) = none := by
            unfold lastIdxOf
            rw [hcs, if_neg hc]
          rw [h2] at h
          cases h
    · rintro ⟨hget, hafter⟩
      cases i with
      | zero =>
        have hc : c = ch := by simpa using hget
        have hnone : lastIdxOf ch cs = none := by
          apply (lastIdxOf_none_iff ch cs).mpr
          intro x hx hxch
          subst hxch
          obtain ⟨n, hn⟩ := List.get?_of_mem hx
          exact hafter (n + 1) (Nat.succ_pos n) (by simpa using hn)
        unfold lastIdxOf
        rw [hnone, if_pos (beq_iff_eq.mpr hc)]
      | succ k =>
        have hget2 : cs.get? k = some ch := by simpa using hget
        have hafter2 : ∀ j, k < j → cs.get? j ≠ some ch := by
          intro j hj hc2
          exact hafter (j + 1) (by omega) (by simpa using hc2)
        have hrec := (ih k).mpr ⟨hget2, hafter2⟩
        unfold lastIdxOf
        rw [hrec]

/-!
## Decomposing `reload_index`
-/

lemma foldl_posts (f : PostDir → Record) :
    ∀ (posts : List PostDir) (acc : List Record),
      posts.foldl (fun a p => if p.hasIndex then a ++ [f p] else a) acc
        = acc ++ (posts.filter (fun p => p.hasIndex)).map f := by
  intro posts
  induction posts with
  | nil => intro acc; simp
  | cons p ps ih =>
    intro acc
    show ps.foldl _ (if p.hasIndex then acc ++ [f p] else acc)
      = acc ++ ((p :: ps).filter (fun p => p.hasIndex)).map f
    by_cases hp : p.hasIndex = true
    · rw [if_pos hp, ih, List.filter_cons_of_pos hp]
      simp [List.append_assoc]
    · rw [if_neg hp, ih, List.filter_cons_of_neg (by simpa using hp)]

lemma reload_foldl (fs : Fs) (host : PyStr) :
    ∀ (cats : List (PyStr × PyStr)) (acc : List Record),
      cats.foldl (fun acc cat =>
        match fs.listing cat.2 with
        | none => acc
        | some posts =>
            posts.foldl (fun a p =>
              if p.hasIndex then a ++ [mkRecord fs.baseDir host cat.2 cat.1 p] else a) acc) acc
        = acc ++ (cats.map (catRecords fs host)).flatten := by
  intro cats
  induction cats with
  | nil => intro acc; simp
  | cons cat cs ih =>
    intro acc
    show cs.foldl _
        (match fs.listing cat.2 with
         | none => acc
         | some posts =>
             posts.foldl (fun a p =>
               if p.hasIndex then a ++ [mkRecord fs.baseDir host cat.2 cat.1 p] else a) acc)
      = acc ++ ((cat :: cs).map (catRecords fs host)).flatten
    cases hl : fs.listing cat.2 with
    | none =>
      rw [ih]
      have hcr : catRecords fs host cat = [] := by
        unfold catRecords
        rw [hl]
      simp [hcr]
    | some posts =>
      rw [ih]
      have hcr : catRecords fs host cat
          = (posts.filter (fun p => p.hasIndex)).map (mkRecord fs.baseDir host cat.2 cat.1) := by
        unfold catRecords
        rw [hl]
      show (posts.foldl (fun a p =>
          if p.hasIndex then a ++ [mkRecord fs.baseDir host cat.2 cat.1 p] else a) acc)
          ++ (List.map (catRecords fs host) cs).flatten
        = acc ++ (List.map (catRecords fs host) (cat :: cs)).flatten
      rw [foldl_posts]
      simp [hcr, List.append_assoc]

lemma reload_index_eq (fs : Fs) (host : PyStr) (hb : fs.baseExists = true) :
    reload_index fs host = (categories.map (catRecords fs host)).flatten := by
  unfold reload_index
  rw [if_neg (by simp [hb])]
  exact reload_foldl fs host categories []

lemma reload_index_length (fs : Fs) (host : PyStr) (hb : fs.baseExists = true) :
    (reload_index fs host).length = totalEligible fs := by
  rw [reload_index_eq fs host hb, List.length_flatten]
  unfold totalEligible
  congr 1
  rw [List.map_map]
  apply List.map_congr_left
  intro cat _
  show (catRecords fs host cat).length = _
  unfold catRecords
  cases hl : fs.listing cat.2 with
  | none => rfl
  | some posts => simp

/-!
## The claims
-/

/-- C3: for every index and every query whose normalisation is nonempty, if
some record's lowercased title equals the normalised query exactly — and it
is the earliest such record — then `search` returns exactly that one record,
and no substring, token-AND, or fuzzy tier contributes anything. -/
theorem exact_match_short_circuit (idx : List Record) (q : PyStr) (r : Record) (i : Nat)
    (hq : pyNormalize q ≠ [])
    (hi : idx.get? i = some r)
    (hr : pyLowerStr r.title = pyNormalize q)
    (hfirst : ∀ j r2, j < i → idx.get? j = some r2 → pyLowerStr r2.title ≠ pyNormalize q) :
    search idx q = [r] := by
  apply search_exact hq
  apply find?_eq_some_of_get? hi (by simp [hr])
  intro j r2 hj hget
  simp [hfirst j r2 hj hget]

/-- Witness for C3: an index with "리모컨 고장" and "리모컨 사용법"; the
exact query returns only the exactly-matching record even though the other
title shares the substring "리모컨". -/
theorem exact_match_short_circuit_witness :
    search [mkTitled "리모컨 고장", mkTitled "리모컨 사용법"] (pstr "리모컨 사용법")
      = [mkTitled "리모컨 사용법"] := by
  apply exact_match_short_circuit _ _ _ 1 (by decide) (by decide) (by decide)
  intro j r2 hj hget
  have hj0 : j = 0 := by omega
  subst hj0
  have hr2 : r2 = mkTitled "리모컨 고장" := by
    injection hget with h3
    exact h3.symm
  subst hr2
  decide

/-- C10: when two distinct records both match the normalised query exactly,
`search` returns a singleton holding the earliest of them; the later exact
match is not returned. -/
theorem duplicate_exact_match_first (idx : List Record) (q : PyStr) (r1 r2 : Record)
    (i j : Nat)
    (hij : i < j) (h1 : idx.get? i = some r1) (h2 : idx.get? j = some r2)
    (hne : r1 ≠ r2)
    (hl1 : pyLowerStr r1.title = pyNormalize q)
    (hl2 : pyLowerStr r2.title = pyNormalize q)
    (hq : pyNormalize q ≠ [])
    (hfirst : ∀ k rk, k < i → idx.get? k = some rk → pyLowerStr rk.title ≠ pyNormalize q) :
    search idx q = [r1] ∧ (search idx q).length = 1 ∧ r2 ∉ search idx q := by
  have hs : search idx q = [r1] := by
    apply search_exact hq
    apply find?_eq_some_of_get? h1 (by simp [hl1])
    intro k rk hk hget
    simp [hfirst k rk hk hget]
  refine ⟨hs, by rw [hs]; rfl, ?_⟩
  rw [hs]
  intro hmem
  exact hne (List.mem_singleton.mp hmem).symm

/-- Witness for C10: titles "ABC" and "abc" both lowercase to the query
"abc"; only the earlier record is returned. -/
theorem duplicate_exact_match_first_witness :
    search [mkTitled "ABC", mkTitled "abc"] (pstr "abc") = [mkTitled "ABC"]
    ∧ (search [mkTitled "ABC", mkTitled "abc"] (pstr "abc")).length = 1
    ∧ mkTitled "abc" ∉ search [mkTitled "ABC", mkTitled "abc"] (pstr "abc") := by
  apply duplicate_exact_match_first _ _ _ _ 0 1 (by decide) (by decide) (by decide)
    (by decide) (by decide) (by decide) (by decide)
  intro k rk hk
  omega

/-- C4: when no exact title match exists and tiers 2–3 already accumulated 3
or more results, the fuzzy tier does not run and `search` returns exactly
the tier-2/3 accumulation; the fuzzy tier is attempted only below 3. -/
theorem fuzzy_tier_gating (idx : List Record) (q : PyStr) (hq : q ≠ [])
    (hnoexact : ∀ r ∈ idx, pyLowerStr r.title ≠ pyNormalize q)
    (h3 : 3 ≤ (tier23 idx (pyNormalize q)).length) :
    search idx q = tier23 idx (pyNormalize q) := by
  rw [search_eq idx q hq, find?_lower_eq_none hnoexact]
  show tier4 idx (pyNormalize q) (tier23 idx (pyNormalize q)) = tier23 idx (pyNormalize q)
  unfold tier4
  rw [if_neg (by omega)]

/-- Witness for C4: three titles all containing "화면"; the substring tier
collects all three, so fuzzy matching appends nothing. -/
theorem fuzzy_tier_gating_witness :
    search [mkTitled "화면 밝기", mkTitled "화면 색상", mkTitled "화면 끄기"] (pstr "화면")
      = tier23 [mkTitled "화면 밝기", mkTitled "화면 색상", mkTitled "화면 끄기"]
          (pyNormalize (pstr "화면")) :=
  fuzzy_tier_gating _ _ (by decide) (by decide) (by decide)

/-- C7: `search` never returns two records with the same title (its
`seen_titles` dedup), and each returned record is the first record of the
index bearing its title; under the builder's guarantee that titles are
unique within a category, `get_by_category` also never returns a duplicate
title. -/
theorem dedup_by_title (idx : List Record) (q c : PyStr)
    (huniq : idx.Pairwise (fun a b => a.category = b.category → a.title ≠ b.title)) :
    TitlesNodup (search idx q)
    ∧ (∀ r ∈ search idx q, firstWithTitle idx r.title = some r)
    ∧ TitlesNodup (get_by_category idx c) := by
  refine ⟨search_titlesNodup, search_first, ?_⟩
  unfold get_by_category
  have hpw : (idx.filter (fun it => it.category == c)).Pairwise
      (fun a b => a.category = b.category → a.title ≠ b.title) :=
    huniq.filter _
  refine hpw.imp_of_mem ?_
  intro a b ha hb hab
  have hac : a.category = c := by simpa using (List.mem_filter.mp ha).2
  have hbc : b.category = c := by simpa using (List.mem_filter.mp hb).2
  exact hab (by rw [hac, hbc])

/-- Witness for C7: two records share the title "설치 안내" across two
categories; the search response repeats no title and returns the earlier
record. -/
theorem dedup_by_title_witness :
    TitlesNodup (search [{ mkTitled "설치 안내" with category := pstr "QnA" },
        { mkTitled "설치 안내" with category := pstr "Products" }] (pstr "설치 안내"))
    ∧ (∀ r ∈ search [{ mkTitled "설치 안내" with category := pstr "QnA" },
        { mkTitled "설치 안내" with category := pstr "Products" }] (pstr "설치 안내"),
        firstWithTitle [{ mkTitled "설치 안내" with category := pstr "QnA" },
          { mkTitled "설치 안내" with category := pstr "Products" }] r.title = some r)
    ∧ TitlesNodup (get_by_category [{ mkTitled "설치 안내" with category := pstr "QnA" },
        { mkTitled "설치 안내" with category := pstr "Products" }] (pstr "QnA")) :=
  dedup_by_title _ _ _ (by decide)

/-- C9: every record returned by `search` or `get_by_category` is an element
of the index, and `get_by_category` on a category no record bears returns
the empty list. -/
theorem results_from_index (idx : List Record) (q c : PyStr) :
    (∀ r ∈ search idx q, r ∈ idx)
    ∧ (∀ r ∈ get_by_category idx c, r ∈ idx)
    ∧ ((∀ r ∈ idx, r.category ≠ c) → get_by_category idx c = []) := by
  refine ⟨search_subset, ?_, ?_⟩
  · intro r hr
    exact (List.mem_filter.mp hr).1
  · intro h
    apply List.filter_eq_nil_iff.mpr
    intro a ha
    simp [h a ha]

/-- Witness for C9: a category string outside the indexed set yields the
empty list. -/
theorem results_from_index_witness :
    get_by_category [{ mkTitled "자가 진단" with category := pstr "Selftest" }]
      (pstr "NoSuchCategory") = [] :=
  (results_from_index [{ mkTitled "자가 진단" with category := pstr "Selftest" }]
    (pstr "x") (pstr "NoSuchCategory")).2.2 (by decide)

/-- C1 (counterexample): the claim says `search("   ")` returns the empty
sequence for every index, but on the one-record index below the
whitespace-only query strips to the empty string, the substring tier
matches it against the title, and the whole index is returned. -/
theorem search_whitespace_counterexample :
    search [mkTitled "배송 안내"] (pstr "   ") = [mkTitled "배송 안내"]
    ∧ search [mkTitled "배송 안내"] (pstr "   ") ≠ [] := by
  exact ⟨by decide, by decide⟩

/-- C1 (amended): `search("")` returns the empty sequence and a
whitespace-only query raises no error, but such a query normalises to the
empty string, which the substring tier matches against every (nonempty)
title, so `search` returns the whole index deduplicated by title rather
than the empty sequence. -/
theorem search_empty_and_whitespace_amended (idx : List Record) (q : PyStr)
    (hq : q ≠ []) (hsp : ∀ c ∈ q, isPySpace c = true)
    (ht : ∀ r ∈ idx, r.title ≠ []) :
    search idx [] = [] ∧ search idx q = dedupByTitle idx :=
  ⟨rfl, search_all_space hq hsp ht⟩

/-- Witness for the amended C1: a two-record index, queried with two
spaces. -/
theorem search_empty_and_whitespace_amended_witness :
    search [mkTitled "교환 안내", mkTitled "반품 안내"] [] = []
    ∧ search [mkTitled "교환 안내", mkTitled "반품 안내"] (pstr "  ")
        = dedupByTitle [mkTitled "교환 안내", mkTitled "반품 안내"] :=
  search_empty_and_whitespace_amended _ _ (by decide) (by decide) (by decide)

/-- C2 (counterexample): on the two-record index of the claim, the query
"배터리 교체" does not return only "리모컨 배터리 교체": after the substring
and token tiers only one result has accumulated, so the fuzzy tier runs,
and "배터리 부족 경고" scores 8/15 ≥ 0.4 against the query and is
appended. -/
theorem token_and_counterexample :
    search [mkTitled "리모컨 배터리 교체", mkTitled "배터리 부족 경고"] (pstr "배터리 교체")
      ≠ [mkTitled "리모컨 배터리 교체"] := by decide

/-- C2 (amended): `search("배터리 교체")` on that index returns
"리모컨 배터리 교체" first (found by the substring tier; the token-AND tier
adds nothing new), and, because fewer than 3 results accumulated, the fuzzy
tier appends "배터리 부족 경고" as well. -/
theorem token_and_amended :
    search [mkTitled "리모컨 배터리 교체", mkTitled "배터리 부족 경고"] (pstr "배터리 교체")
      = [mkTitled "리모컨 배터리 교체", mkTitled "배터리 부족 경고"] := by decide

/-- C5: for flattened text longer than 800 characters, the summary is cut
at the last period among the first 800 characters (inclusive); when there
is none it is the first 800 characters plus an ellipsis; text of at most
800 characters is returned unchanged. -/
theorem summary_truncation (text : PyStr) :
    (∀ i, 800 < text.length → i < 800 → text.get? i = some '.' →
        (∀ j, j < 800 → text.get? j = some '.' → j ≤ i) →
        truncateText text = text.take (i + 1))
    ∧ (800 < text.length → (∀ i, i < 800 → text.get? i ≠ some '.') →
        truncateText text = text.take 800 ++ pstr "...")
    ∧ (text.length ≤ 800 → truncateText text = text) := by
  refine ⟨?_, ?_, ?_⟩
  · intro i hlen hi hp hmax
    have hr : pyRfind '.' text 800 = some i := by
      unfold pyRfind
      apply (lastIdxOf_some_iff '.' (text.take 800) i).mpr
      constructor
      · rw [List.get?_take hi]
        exact hp
      · intro j hj hcontra
        by_cases hj8 : j < 800
        · rw [List.get?_take hj8] at hcontra
          have := hmax j hj8 hcontra
          omega
        · have hlen2 : (text.take 800).length ≤ j := by
            rw [List.length_take]
            omega
          rw [List.get?_eq_none.mpr hlen2] at hcontra
          cases hcontra
    unfold truncateText
    rw [if_pos hlen, hr]
  · intro hlen hno
    have hr : pyRfind '.' text 800 = none := by
      unfold pyRfind
      apply (lastIdxOf_none_iff '.' (text.take 800)).mpr
      intro c hc hceq
      subst hceq
      obtain ⟨n, hn⟩ := List.get?_of_mem hc
      have hn8 : n < 800 := by
        rcases List.get?_eq_some.mp hn with ⟨hlt, _⟩
        have : (text.take 800).length ≤ 800 := by
          rw [List.length_take]
          omega
        omega
      have hdot : text.get? n = some '.' := by
        rw [← List.get?_take hn8]
        exact hn
      exact hno n hn8 hdot
    unfold truncateText
    rw [if_pos hlen, hr]
  · intro hlen
    unfold truncateText
    rw [if_neg (by omega)]

/-- Witness for C5: 801 characters whose only (hence last) period sits at
position 750; the summary is the 751-character prefix ending at it. -/
theorem summary_truncation_witness :
    800 < (List.replicate 750 'a' ++ '.' :: List.replicate 50 'b' : PyStr).length
    ∧ truncateText (List.replicate 750 'a' ++ '.' :: List.replicate 50 'b')
        = (List.replicate 750 'a' ++ '.' :: List.replicate 50 'b').take (750 + 1) := by
  have hlen : (List.replicate 750 'a' ++ '.' :: List.replicate 50 'b' : PyStr).length = 801 := by
    simp
  have hdot : (List.replicate 750 'a' ++ '.' :: List.replicate 50 'b' : PyStr).get? 750
      = some '.' := by
    rw [List.get?_append_right (by simp)]
    simp
  refine ⟨by omega, (summary_truncation _).1 750 (by omega) (by omega) hdot ?_⟩
  intro j hj hget
  by_contra hgt
  have hj751 : 751 ≤ j := by omega
  rw [List.get?_append_right (by simp; omega)] at hget
  have hsub : j - (List.replicate 750 'a' : PyStr).length = (j - 751) + 1 := by
    simp
    omega
  rw [hsub] at hget
  have hmem : '.' ∈ List.replicate 50 'b' := List.get?_mem (by simpa using hget)
  have : '.' = 'b' := List.eq_of_mem_replicate hmem
  cases this

/-- C6: a document that cannot be read still yields an index record whose
summary is the fixed placeholder and whose thumbnail is null; the build is
not aborted and no other document is dropped (the index length equals the
number of discovered documents). -/
theorem failed_parse_record (fs : Fs) (host catName folder : PyStr)
    (posts : List PostDir) (p : PostDir)
    (hb : fs.baseExists = true)
    (hcat : (catName, folder) ∈ categories)
    (hl : fs.listing folder = some posts)
    (hp : p ∈ posts) (hidx : p.hasIndex = true) (hfail : p.data = none) :
    mkRecord fs.baseDir host folder catName p ∈ reload_index fs host
    ∧ (mkRecord fs.baseDir host folder catName p).title = p.title
    ∧ (mkRecord fs.baseDir host folder catName p).summary = placeholderSummary
    ∧ (mkRecord fs.baseDir host folder catName p).image_url = none
    ∧ (reload_index fs host).length = totalEligible fs := by
  refine ⟨?_, rfl, ?_, ?_, reload_index_length fs host hb⟩
  · rw [reload_index_eq fs host hb]
    apply List.mem_flatten.mpr
    refine ⟨catRecords fs host (catName, folder), List.mem_map_of_mem _ hcat, ?_⟩
    show mkRecord fs.baseDir host folder catName p ∈
      (match fs.listing folder with
       | none => ([] : List Record)
       | some ps =>
           (ps.filter (fun x : PostDir => x.hasIndex)).map
             (mkRecord fs.baseDir host folder catName))
    rw [hl]
    exact List.mem_map_of_mem _ (List.mem_filter.mpr ⟨hp, hidx⟩)
  · show extract_summary p.data = placeholderSummary
    rw [hfail]
    rfl
  · simp [mkRecord, extract_image, hfail]

/-- Witness for C6: on `fsDemo`, the broken post produces a
placeholder-summary record with no thumbnail, and both posts are
indexed. -/
theorem failed_parse_record_witness :
    mkRecord fsDemo.baseDir (pstr "http://localhost:8081") (pstr "크롤링_QnA") (pstr "QnA")
        postBroken ∈ reload_index fsDemo (pstr "http://localhost:8081")
    ∧ (mkRecord fsDemo.baseDir (pstr "http://localhost:8081") (pstr "크롤링_QnA") (pstr "QnA")
        postBroken).title = postBroken.title
    ∧ (mkRecord fsDemo.baseDir (pstr "http://localhost:8081") (pstr "크롤링_QnA") (pstr "QnA")
        postBroken).summary = placeholderSummary
    ∧ (mkRecord fsDemo.baseDir (pstr "http://localhost:8081") (pstr "크롤링_QnA") (pstr "QnA")
        postBroken).image_url = none
    ∧ (reload_index fsDemo (pstr "http://localhost:8081")).length = totalEligible fsDemo :=
  failed_parse_record fsDemo (pstr "http://localhost:8081") (pstr "QnA") (pstr "크롤링_QnA")
    [postOk, postBroken] postBroken rfl (by decide) (by decide) (by decide) rfl rfl

/-- C8: rebuilding over an unchanged file-system value is deterministic and
fully replaces the stored index — it never appends to it: the rebuilt index
is the same whatever index was stored before, and rebuilding twice changes
nothing. -/
theorem reload_replaces_index (st st2 : IndexerState) (fs : Fs) (host : PyStr) :
    (reloadState (reloadState st fs host) fs host).index = (reloadState st fs host).index
    ∧ (reloadState st fs host).index = (reloadState st2 fs host).index
    ∧ (reloadState st fs host).index = reload_index fs host :=
  ⟨rfl, rfl, rfl⟩
